import Mathlib

/-!
# Verification of the `yapper_analysis` data pipeline

Shallow embedding of `src/yapper_analysis.py`, a linear pandas pipeline:
load → left-join → quality filters → three aggregators.

Modelling conventions:
* A dataframe is a `List` of row structures; every pandas transform used by
  the script (filter, groupby/agg, merge, rank, sort_values, isin) is a
  corresponding list function.
* `ds` (the date column) is modelled as a day ordinal (`Nat`, days since
  2020-01-01).  The script's date handling is order-based only: lexicographic
  comparison of ISO `YYYY-MM-DD` strings (`df['ds'] >= '2020-07-01'`),
  `pd.to_datetime` followed by `min`/`max`, and a daily `pd.date_range`.
  All of these are order-isomorphic to the day ordinals, with a daily
  calendar step corresponding to `+1`.  The two literal cutoffs are
  `d20200701` and `d20200725` below.
* Float arithmetic is modelled exactly over `ℚ`; the one place where IEEE
  non-finite values matter (division by a zero group total) is modelled by
  `fdiv : ℚ → ℚ → Option ℚ`, `none` standing for the inf/NaN a float
  division by zero produces.
* `groupby` group keys are collected with `List.dedup`; pandas returns group
  keys in sorted order, but every property proved below is insensitive to
  the enumeration order of group keys (outputs are either re-sorted by a
  metric column or only queried for membership).
* Machine integers (`active_users`, `messages_7d`) are modelled as `Int`
  (pandas reads them as int64; no value in the pipeline approaches 2^63,
  and no arithmetic in the script wraps).
-/

attribute [local semireducible] Rat.add Rat.sub Rat.mul Rat.inv Rat.ofScientific

namespace Yapper

/-- One row of `team_activity.csv` after the loader assigns column names
(`act.columns = ['ds','team_id','country','industry_id','active_users','messages_7d']`). -/
structure ActRow where
  ds : Nat
  team_id : Nat
  country : String
  industry_id : Nat
  active_users : Int
  messages_7d : Int
deriving DecidableEq

/-- One row of `industry_map.csv` (header row: `industry_id`, `industry`). -/
structure IndMapRow where
  industry_id : Nat
  industry : String
deriving DecidableEq

/-- One row of the joined working dataframe produced by `read_data`:
an activity row enriched with the (possibly missing) industry name. -/
structure Row where
  ds : Nat
  team_id : Nat
  country : String
  industry_id : Nat
  active_users : Int
  messages_7d : Int
  industry : Option String
deriving DecidableEq

/-! ## Loader (`read_data`) -/

/-- Fuel-driven core of Python's `str.replace(pat, rep)`: scan left to right,
replace each non-overlapping occurrence of `pat`, resume after the replaced
occurrence.  The fuel only makes the recursion structural; `replaceL` below
always supplies enough fuel (one unit per consumed character), so the `0`
branch is never the one that truncates a scan. -/
def replaceFuel (pat rep : List Char) : Nat → List Char → List Char
  | 0, l => l
  | _ + 1, [] => []
  | f + 1, c :: cs =>
    if pat.isPrefixOf (c :: cs) then
      rep ++ replaceFuel pat rep f (cs.drop (pat.length - 1))
    else
      c :: replaceFuel pat rep f cs

/-- Python's `str.replace(pat, rep)` on a list of characters. -/
def replaceL (pat rep : List Char) (s : List Char) : List Char :=
  replaceFuel pat rep s.length s

/-- The substring rewritten by the loader: `'Health Care'`. -/
def hcPat : List Char := ['H', 'e', 'a', 'l', 't', 'h', ' ', 'C', 'a', 'r', 'e']

/-- Its replacement: `'Healthcare'`. -/
def hcRep : List Char := ['H', 'e', 'a', 'l', 't', 'h', 'c', 'a', 'r', 'e']

/-- `ind['industry'].str.replace('Health Care', 'Healthcare')` applied to one
industry-name field (case-sensitive substring replacement). -/
def normalize_industry (s : String) : String :=
  ⟨replaceL hcPat hcRep s.toList⟩

/-- The normalization applied to the whole industry map (it never touches
`industry_id`). -/
def normalizeInd (ind : List IndMapRow) : List IndMapRow :=
  ind.map (fun e => { e with industry := normalize_industry e.industry })

/-- Assemble a joined row from an activity row and an optional industry name. -/
def mkJoined (a : ActRow) (o : Option String) : Row :=
  ⟨a.ds, a.team_id, a.country, a.industry_id, a.active_users, a.messages_7d, o⟩

/-- `pd.merge(act, ind, how='left', on='industry_id')`: every activity row is
kept; a row with no key match gets a missing industry name; a row with
several key matches fans out into one output row per match. -/
def leftJoin (act : List ActRow) (ind : List IndMapRow) : List Row :=
  act.flatMap (fun a =>
    if (ind.filter (fun e => e.industry_id == a.industry_id)).isEmpty then
      [mkJoined a none]
    else
      (ind.filter (fun e => e.industry_id == a.industry_id)).map
        (fun e => mkJoined a (some e.industry)))

/-- `read_data`, with CSV parsing abstracted to already-parsed row lists:
normalize the industry names, then left-join activity onto the map. -/
def read_data (act : List ActRow) (ind : List IndMapRow) : List Row :=
  leftJoin act (normalizeInd ind)

/-! ## Aggregation helpers

pandas `min`/`max` aggregates are only ever taken over nonempty groups;
the default of `foldMax`/`foldMin` is never reached from a group key. -/

/-- Maximum of a list, `d` for the (never queried) empty list. -/
def foldMax {α : Type} [LinearOrder α] (d : α) : List α → α
  | [] => d
  | x :: xs => xs.foldl max x

/-- Minimum of a list, `d` for the (never queried) empty list. -/
def foldMin {α : Type} [LinearOrder α] (d : α) : List α → α
  | [] => d
  | x :: xs => xs.foldl min x

/-! ## Quality filters -/

/-- The group keys of `df.groupby(['team_id'])`. -/
def teamIds (df : List Row) : List Nat := (df.map Row.team_id).dedup

/-- The rows of team `t`'s group. -/
def teamRows (df : List Row) (t : Nat) : List Row :=
  df.filter (fun r => r.team_id == t)

/-- `agg(['min','max'])['max']` of `active_users` for team `t`. -/
def maxActive (df : List Row) (t : Nat) : Int :=
  foldMax 0 ((teamRows df t).map Row.active_users)

/-- `check_no_active_users`: flag a team when `max + max` of its
`active_users` is zero (the script also computes the per-team `min`, which
it never uses).  pandas lists the flagged ids in sorted order; the claims
about this check only use membership. -/
def check_no_active_users (df : List Row) : List Nat :=
  (teamIds df).filter (fun t => maxActive df t + maxActive df t == 0)

/-- `groupby(['team_id'])['active_users'].count()` for team `t` (no value in
the model is missing, so the count is the row count of the group). -/
def countRows (df : List Row) (t : Nat) : Nat := (teamRows df t).length

/-- `max(cohort_chk)`: the largest per-team row count. -/
def maxTeamCount (df : List Row) : Nat :=
  foldMax 0 ((teamIds df).map (countRows df))

/-- `check_consistent_cohort`: flag a team whose row count differs from the
global per-team maximum. -/
def check_consistent_cohort (df : List Row) : List Nat :=
  (teamIds df).filter (fun t => countRows df t != maxTeamCount df)

/-- The `ds` column. -/
def dsList (df : List Row) : List Nat := df.map Row.ds

/-- `check_missing_dates`: the days of the contiguous daily calendar from the
minimum to the maximum observed date that are absent from the data. -/
def check_missing_dates (df : List Row) : List Nat :=
  let lo := foldMin 0 (dsList df)
  let hi := foldMax 0 (dsList df)
  (List.range' lo (hi - lo + 1)).filter (fun d => !(dsList df).contains d)

/-- `df[~df['team_id'].isin(ts)]`: drop every row whose team id is flagged. -/
def isinExclude (df : List Row) (ts : List Nat) : List Row :=
  df.filter (fun r => !ts.contains r.team_id)

/-! ## Aggregators -/

/-- Day ordinal of 2020-07-01 (days since 2020-01-01; 2020 is a leap year). -/
def d20200701 : Nat := 182

/-- Day ordinal of 2020-07-25. -/
def d20200725 : Nat := 206

/-- One output row of `active_users_by_ind`. -/
structure IndUsersRow where
  industry : String
  active_users : Int
  avg_daily_users : ℚ
deriving DecidableEq

/-- Descending order on the 7-day `active_users` sum (`sort_values('active_users', ascending=False)`). -/
def leUsersDesc (a b : IndUsersRow) : Prop := b.active_users ≤ a.active_users

instance : DecidableRel leUsersDesc := fun a b => Int.decLe b.active_users a.active_users

instance : IsTotal IndUsersRow leUsersDesc :=
  ⟨fun a b => Int.le_total b.active_users a.active_users⟩

instance : IsTrans IndUsersRow leUsersDesc :=
  ⟨fun _ _ _ h1 h2 => le_trans h2 h1⟩

/-- `end_jul_df = df[df['ds'] >= '2020-07-25']`. -/
def lastWeekRows (df : List Row) : List Row :=
  df.filter (fun r => decide (d20200725 ≤ r.ds))

/-- Group keys of `end_jul_df.groupby(['industry'])`: pandas drops rows whose
group key is missing (`dropna=True`), so only present industry names become
groups. -/
def indKeys (df : List Row) : List String :=
  ((lastWeekRows df).filterMap Row.industry).dedup

/-- The rows of industry `i`'s group. -/
def indGroupRows (df : List Row) (i : String) : List Row :=
  (lastWeekRows df).filter (fun r => r.industry == some i)

/-- The 7-day `active_users` sum of industry `i`. -/
def indSum (df : List Row) (i : String) : Int :=
  ((indGroupRows df i).map Row.active_users).sum

/-- `active_users_by_ind`: last-week rows grouped by industry, summed, given a
`/7` daily average, and sorted by the sum descending. -/
def active_users_by_ind (df : List Row) : List IndUsersRow :=
  List.insertionSort leUsersDesc
    ((indKeys df).map (fun i => ⟨i, indSum df i, (indSum df i : ℚ) / 7⟩))

/-- One output row of `avg_team_sz_top_countries` (the script keeps the
`teams_cnt_rank` helper column in its output). -/
structure CntryRow where
  country : String
  countd_teams : Nat
  avg_team_sz : ℚ
  teams_cnt_rank : ℚ
deriving DecidableEq

/-- Ascending order on the rank column (`sort_values('teams_cnt_rank')`). -/
def leRankAsc (a b : CntryRow) : Prop := a.teams_cnt_rank ≤ b.teams_cnt_rank

instance : DecidableRel leRankAsc := fun a b => Rat.instDecidableLe a.teams_cnt_rank b.teams_cnt_rank

instance : IsTotal CntryRow leRankAsc :=
  ⟨fun a b => le_total a.teams_cnt_rank b.teams_cnt_rank⟩

instance : IsTrans CntryRow leRankAsc :=
  ⟨fun _ _ _ h1 h2 => le_trans h1 h2⟩

/-- Descending order on average team size (`sort_values('avg_team_sz', ascending=False)`). -/
def leAvgSzDesc (a b : CntryRow) : Prop := b.avg_team_sz ≤ a.avg_team_sz

instance : DecidableRel leAvgSzDesc := fun a b => Rat.instDecidableLe b.avg_team_sz a.avg_team_sz

instance : IsTotal CntryRow leAvgSzDesc :=
  ⟨fun a b => le_total b.avg_team_sz a.avg_team_sz⟩

instance : IsTrans CntryRow leAvgSzDesc :=
  ⟨fun _ _ _ h1 h2 => le_trans h2 h1⟩

/-- `cntry_df = df[df['ds'] >= '2020-07-01']`. -/
def julyRows (df : List Row) : List Row :=
  df.filter (fun r => decide (d20200701 ≤ r.ds))

/-- Group keys of `cntry_df.groupby(['country'])`. -/
def cntryKeys (df : List Row) : List String :=
  ((julyRows df).map Row.country).dedup

/-- The rows of country `c`'s group. -/
def cntryRows (df : List Row) (c : String) : List Row :=
  (julyRows df).filter (fun r => r.country == c)

/-- `'team_id':'nunique'` for country `c`. -/
def countdTeams (df : List Row) (c : String) : Nat :=
  ((cntryRows df c).map Row.team_id).dedup.length

/-- `'active_users':'mean'` for country `c` (a country group is nonempty). -/
def avgTeamSz (df : List Row) (c : String) : ℚ :=
  (((cntryRows df c).map Row.active_users).sum : ℚ) / ((cntryRows df c).length : ℚ)

/-- `cntry_summ['countd_teams'].rank(ascending=False)` for country `c`:
pandas' default `method='average'` rank, descending — the count of countries
with a strictly larger distinct-team count, plus half of (size of the tied
group + 1); tied countries share one (possibly fractional) rank. -/
def rankOf (df : List Row) (c : String) : ℚ :=
  (((cntryKeys df).filter
      (fun d => decide (countdTeams df c < countdTeams df d))).length : ℚ) +
    ((((cntryKeys df).filter
        (fun d => countdTeams df d == countdTeams df c)).length : ℚ) + 1) / 2

/-- The grouped country summary with its rank column, one row per country. -/
def cntrySummRows (df : List Row) : List CntryRow :=
  (cntryKeys df).map (fun c => ⟨c, countdTeams df c, avgTeamSz df c, rankOf df c⟩)

/-- `avg_team_sz_top_countries`: July rows grouped by country, ranked by
distinct team count descending, sorted by rank, filtered to rank ≤ `top_n`,
then re-sorted by average team size descending. -/
def avg_team_sz_top_countries (df : List Row) (top_n : Nat) : List CntryRow :=
  List.insertionSort leAvgSzDesc
    ((List.insertionSort leRankAsc (cntrySummRows df)).filter
      (fun row => decide (row.teams_cnt_rank ≤ (top_n : ℚ))))

/-- One output row of `daily_summary_figues`. -/
structure DlyRow where
  ds : Nat
  countd_teams : Nat
  total_active_users : Int
  avg_team_users : ℚ
  total_msgs_mm : ℚ
  msgs_per_user : Option ℚ
deriving DecidableEq

/-- IEEE float division as performed by the script, with the result recorded
only when it is finite: a zero divisor yields inf (nonzero dividend) or NaN
(zero dividend), both modelled as `none`. -/
def fdiv (a b : ℚ) : Option ℚ :=
  if b = 0 then none else some (a / b)

/-- Group keys of `df.groupby(['ds'])`. -/
def dsKeys (df : List Row) : List Nat := (dsList df).dedup

/-- The rows of date `d`'s group. -/
def dateRows (df : List Row) (d : Nat) : List Row :=
  df.filter (fun r => r.ds == d)

/-- `daily_summary_figues` (spelled as in the source): per-date distinct team
count, `active_users` sum and mean, message total scaled to millions, and the
unguarded messages-per-user ratio `total_msgs_mm * 1e6 / total_active_users`. -/
def daily_summary_figues (df : List Row) : List DlyRow :=
  (dsKeys df).map (fun d =>
    let g := dateRows df d
    let totalActive : Int := (g.map Row.active_users).sum
    let totalMsgsMM : ℚ := ((g.map Row.messages_7d).sum : ℚ) / 1000000
    ⟨d, (g.map Row.team_id).dedup.length, totalActive,
      (totalActive : ℚ) / (g.length : ℚ), totalMsgsMM,
      fdiv (totalMsgsMM * 1000000) (totalActive : ℚ)⟩)

/-! ## Main script -/

/-- Everything the `__main__` block computes before charting. -/
structure MainResult where
  working : List Row
  inactive_list : List Nat
  cohort_chk : List Nat
  missing_dts : List Nat
  ind_users : List IndUsersRow
  cntry_summ : List CntryRow
  dly_summ : List DlyRow
deriving DecidableEq

/-- The `__main__` block: load, drop zero-active-user teams, drop
inconsistent-cohort teams, compute the missing-dates diagnostic, then run the
three aggregators on the (unchanged) working table. -/
def mainPipeline (act : List ActRow) (ind : List IndMapRow) : MainResult :=
  let df0 := read_data act ind
  let inactive := check_no_active_users df0
  let df1 := isinExclude df0 inactive
  let cohort := check_consistent_cohort df1
  let df2 := isinExclude df1 cohort
  let missing := check_missing_dates df2
  ⟨df2, inactive, cohort, missing,
    active_users_by_ind df2, avg_team_sz_top_countries df2 5,
    daily_summary_figues df2⟩

/-- The working table of the main script, written without the missing-dates
diagnostic: only the two team-id exclusion filters touch the rows. -/
def workingTable (act : List ActRow) (ind : List IndMapRow) : List Row :=
  let df0 := read_data act ind
  let df1 := isinExclude df0 (check_no_active_users df0)
  isinExclude df1 (check_consistent_cohort df1)

/-! ## Concrete tables used by witnesses and counterexamples -/

/-- Activity for team 1 with `active_users = 0` on each of 7 days, next to an
active team 2. -/
def exAllZero : List Row :=
  [⟨0, 1, "US", 1, 0, 3, none⟩, ⟨1, 1, "US", 1, 0, 3, none⟩,
   ⟨2, 1, "US", 1, 0, 3, none⟩, ⟨3, 1, "US", 1, 0, 3, none⟩,
   ⟨4, 1, "US", 1, 0, 3, none⟩, ⟨5, 1, "US", 1, 0, 3, none⟩,
   ⟨6, 1, "US", 1, 0, 3, none⟩, ⟨0, 2, "US", 1, 5, 3, none⟩]

/-- Team 1 present on two days, team 2 on only one. -/
def exUneven : List Row :=
  [⟨0, 1, "US", 1, 1, 0, none⟩, ⟨1, 1, "US", 1, 1, 0, none⟩,
   ⟨0, 2, "US", 1, 1, 0, none⟩]

/-- Dates 3..7 with interior day 5 missing. -/
def exGap : List Row :=
  [⟨3, 1, "US", 1, 1, 0, none⟩, ⟨4, 1, "US", 1, 1, 0, none⟩,
   ⟨6, 1, "US", 1, 1, 0, none⟩, ⟨7, 1, "US", 1, 1, 0, none⟩]

/-- A single last-week row in industry `Tech` with 7 active users. -/
def exIndTbl : List Row := [⟨206, 1, "US", 1, 7, 0, some "Tech"⟩]

/-- One date whose group total of `active_users` is zero while messages are
nonzero. -/
def exZeroDay : List Row := [⟨0, 1, "US", 1, 0, 5, none⟩]

/-- One date with 2 active users and 10 messages. -/
def exRatio : List Row := [⟨0, 1, "US", 1, 2, 10, none⟩]

/-- Activity input for the pipeline witness: team 1 is inactive, team 2 is
kept. -/
def exMainAct : List ActRow :=
  [⟨0, 1, "US", 1, 0, 0⟩, ⟨0, 2, "US", 1, 3, 0⟩]

/-- An empty industry map. -/
def exMainInd : List IndMapRow := []

/-- Activity rows whose `industry_id`s are 1 (matched) and 9 (unmatched). -/
def exJoinAct : List ActRow :=
  [⟨0, 1, "US", 1, 4, 0⟩, ⟨0, 2, "US", 9, 4, 0⟩]

/-- An industry map with the single key 1. -/
def exJoinInd : List IndMapRow := [⟨1, "Tech"⟩]

/-- One activity row under industry key 7. -/
def exHcAct : List ActRow := [⟨0, 1, "US", 7, 1, 0⟩]

/-- An industry map carrying both spellings of Healthcare under key 7. -/
def exHcInd : List IndMapRow := [⟨7, "Health Care"⟩, ⟨7, "Healthcare"⟩]

/-- Nine countries, one row and one distinct team each, inside the July
window: a nine-way tie on the distinct-team count. -/
def exNineTie : List Row :=
  [⟨200, 1, "c1", 1, 1, 0, none⟩, ⟨200, 2, "c2", 1, 2, 0, none⟩,
   ⟨200, 3, "c3", 1, 3, 0, none⟩, ⟨200, 4, "c4", 1, 4, 0, none⟩,
   ⟨200, 5, "c5", 1, 5, 0, none⟩, ⟨200, 6, "c6", 1, 6, 0, none⟩,
   ⟨200, 7, "c7", 1, 7, 0, none⟩, ⟨200, 8, "c8", 1, 8, 0, none⟩,
   ⟨200, 9, "c9", 1, 9, 0, none⟩]

end Yapper

/-! ## Helper lemmas -/

namespace Yapper

lemma le_foldl_max {α : Type} [LinearOrder α] (x : α) (l : List α) :
    x ≤ l.foldl max x := by
  induction l generalizing x with
  | nil => exact le_refl x
  | cons y ys ih =>
    rw [List.foldl_cons]
    exact le_trans (le_max_left x y) (ih (max x y))

lemma foldl_max_eq_or_mem {α : Type} [LinearOrder α] (x : α) (l : List α) :
    l.foldl max x = x ∨ l.foldl max x ∈ l := by
  induction l generalizing x with
  | nil => exact Or.inl rfl
  | cons y ys ih =>
    rw [List.foldl_cons]
    rcases ih (max x y) with h | h
    · rcases max_choice x y with hxy | hxy
      · exact Or.inl (by rw [h, hxy])
      · exact Or.inr (by rw [h, hxy]; exact List.mem_cons_self y ys)
    · exact Or.inr (List.mem_cons_of_mem y h)

lemma le_foldl_max_of_mem {α : Type} [LinearOrder α] {x : α} {l : List α}
    (h : x ∈ l) (a : α) : x ≤ l.foldl max a := by
  induction l generalizing a with
  | nil => cases h
  | cons y ys ih =>
    rw [List.foldl_cons]
    rcases List.mem_cons.1 h with rfl | h'
    · exact le_trans (le_max_right a x) (le_foldl_max (max a x) ys)
    · exact ih h' (max a y)

lemma foldMax_mem {α : Type} [LinearOrder α] (d : α) {l : List α} (h : l ≠ []) :
    foldMax d l ∈ l := by
  cases l with
  | nil => exact absurd rfl h
  | cons x xs =>
    show xs.foldl max x ∈ x :: xs
    rcases foldl_max_eq_or_mem x xs with h' | h'
    · rw [h']; exact List.mem_cons_self x xs
    · exact List.mem_cons_of_mem x h'

lemma le_foldMax_of_mem {α : Type} [LinearOrder α] (d : α) {x : α} {l : List α}
    (h : x ∈ l) : x ≤ foldMax d l := by
  cases l with
  | nil => cases h
  | cons y ys =>
    show x ≤ ys.foldl max y
    rcases List.mem_cons.1 h with rfl | h'
    · exact le_foldl_max x ys
    · exact le_foldl_max_of_mem h' y

lemma foldl_min_le {α : Type} [LinearOrder α] (x : α) (l : List α) :
    l.foldl min x ≤ x := by
  induction l generalizing x with
  | nil => exact le_refl x
  | cons y ys ih =>
    rw [List.foldl_cons]
    exact le_trans (ih (min x y)) (min_le_left x y)

lemma foldl_min_eq_or_mem {α : Type} [LinearOrder α] (x : α) (l : List α) :
    l.foldl min x = x ∨ l.foldl min x ∈ l := by
  induction l generalizing x with
  | nil => exact Or.inl rfl
  | cons y ys ih =>
    rw [List.foldl_cons]
    rcases ih (min x y) with h | h
    · rcases min_choice x y with hxy | hxy
      · exact Or.inl (by rw [h, hxy])
      · exact Or.inr (by rw [h, hxy]; exact List.mem_cons_self y ys)
    · exact Or.inr (List.mem_cons_of_mem y h)

lemma foldl_min_le_of_mem {α : Type} [LinearOrder α] {x : α} {l : List α}
    (h : x ∈ l) (a : α) : l.foldl min a ≤ x := by
  induction l generalizing a with
  | nil => cases h
  | cons y ys ih =>
    rw [List.foldl_cons]
    rcases List.mem_cons.1 h with rfl | h'
    · exact le_trans (foldl_min_le (min a x) ys) (min_le_right a x)
    · exact ih h' (min a y)

lemma foldMin_mem {α : Type} [LinearOrder α] (d : α) {l : List α} (h : l ≠ []) :
    foldMin d l ∈ l := by
  cases l with
  | nil => exact absurd rfl h
  | cons x xs =>
    show xs.foldl min x ∈ x :: xs
    rcases foldl_min_eq_or_mem x xs with h' | h'
    · rw [h']; exact List.mem_cons_self x xs
    · exact List.mem_cons_of_mem x h'

lemma foldMin_le_of_mem {α : Type} [LinearOrder α] (d : α) {x : α} {l : List α}
    (h : x ∈ l) : foldMin d l ≤ x := by
  cases l with
  | nil => cases h
  | cons y ys =>
    show ys.foldl min y ≤ x
    rcases List.mem_cons.1 h with rfl | h'
    · exact foldl_min_le x ys
    · exact foldl_min_le_of_mem h' y

lemma mem_teamIds {df : List Row} {t : Nat} :
    t ∈ teamIds df ↔ ∃ r ∈ df, r.team_id = t := by
  simp [teamIds, List.mem_dedup]

lemma teamRows_ne_nil {df : List Row} {t : Nat} (h : t ∈ teamIds df) :
    teamRows df t ≠ [] := by
  obtain ⟨r, hr, hrt⟩ := mem_teamIds.1 h
  refine List.ne_nil_of_mem (l := teamRows df t) (a := r) ?_
  rw [teamRows, List.mem_filter]
  exact ⟨hr, by simp [hrt]⟩

lemma not_mem_of_mem_isinExclude {df : List Row} {ts : List Nat} {r : Row}
    (h : r ∈ isinExclude df ts) : r.team_id ∉ ts := by
  rw [isinExclude, List.mem_filter] at h
  simpa using h.2

end Yapper


/-! ## Claim theorems: quality filters -/

namespace Yapper

/-- C2: assuming every `active_users` value is non-negative, a team id is
returned by `check_no_active_users` exactly when the maximum of
`active_users` over that team's rows is 0; in particular a team whose
`active_users` are all zero is flagged, and after the caller's
`isin`-exclusion none of that team's rows remain. -/
theorem no_active_users_spec (df : List Row)
    (hpos : ∀ r ∈ df, 0 ≤ r.active_users) :
    (∀ t, t ∈ check_no_active_users df ↔ t ∈ teamIds df ∧ maxActive df t = 0) ∧
    ∀ t ∈ teamIds df, (∀ r ∈ teamRows df t, r.active_users = 0) →
      t ∈ check_no_active_users df ∧
        ∀ r ∈ isinExclude df (check_no_active_users df), r.team_id ≠ t := by
  have hiff : ∀ t, t ∈ check_no_active_users df ↔
      t ∈ teamIds df ∧ maxActive df t = 0 := by
    intro t
    rw [check_no_active_users, List.mem_filter]
    simp only [beq_iff_eq]
    constructor
    · rintro ⟨h1, h2⟩; exact ⟨h1, by omega⟩
    · rintro ⟨h1, h2⟩; exact ⟨h1, by omega⟩
  refine ⟨hiff, ?_⟩
  intro t ht hzero
  have hmax : maxActive df t = 0 := by
    have hne : (teamRows df t).map Row.active_users ≠ [] := by
      intro hc
      exact teamRows_ne_nil ht (List.map_eq_nil_iff.1 hc)
    obtain ⟨r, hr, hrv⟩ := List.mem_map.1 (foldMax_mem (0 : Int) hne)
    have hval : maxActive df t = r.active_users := hrv.symm
    rw [hval]
    exact hzero r hr
  have htm : t ∈ check_no_active_users df := (hiff t).2 ⟨ht, hmax⟩
  refine ⟨htm, ?_⟩
  intro r hr hrt
  exact not_mem_of_mem_isinExclude hr (hrt ▸ htm)

/-- Witness for C2 on `exAllZero`: team 1 is flagged and filtered out. -/
theorem no_active_users_spec_witness :
    1 ∈ check_no_active_users exAllZero ∧
      ∀ r ∈ isinExclude exAllZero (check_no_active_users exAllZero),
        r.team_id ≠ 1 :=
  (no_active_users_spec exAllZero (by decide)).2 1 (by decide) (by decide)

/-- C4: every team id returned by `check_consistent_cohort` has a per-team row
count strictly below the maximum per-team row count, and no team whose count
equals the maximum is returned. -/
theorem consistent_cohort_spec (df : List Row) :
    (∀ t ∈ check_consistent_cohort df, countRows df t < maxTeamCount df) ∧
    ∀ t ∈ teamIds df, countRows df t = maxTeamCount df →
      t ∉ check_consistent_cohort df := by
  constructor
  · intro t ht
    rw [check_consistent_cohort, List.mem_filter] at ht
    have hne : countRows df t ≠ maxTeamCount df := by simpa using ht.2
    have hle : countRows df t ≤ maxTeamCount df :=
      le_foldMax_of_mem 0 (List.mem_map_of_mem (countRows df) ht.1)
    omega
  · intro t _ heq hmem
    rw [check_consistent_cohort, List.mem_filter] at hmem
    have : countRows df t ≠ maxTeamCount df := by simpa using hmem.2
    exact this heq

/-- Witness for C4 on `exUneven`: team 2 (one row) is below the maximum of
two rows and is flagged; team 1 (at the maximum) is not flagged. -/
theorem consistent_cohort_spec_witness :
    countRows exUneven 2 < maxTeamCount exUneven ∧
      1 ∉ check_consistent_cohort exUneven :=
  ⟨(consistent_cohort_spec exUneven).1 2 (by decide),
   (consistent_cohort_spec exUneven).2 1 (by decide) (by decide)⟩

end Yapper

namespace Yapper

lemma eq_singleton_of_nodup_of_mem_iff {l : List Nat} {m : Nat}
    (hnd : l.Nodup) (hiff : ∀ d, d ∈ l ↔ d = m) : l = [m] := by
  cases l with
  | nil => exact absurd ((hiff m).2 rfl) (by simp)
  | cons x xs =>
    have hx : x = m := (hiff x).1 (List.mem_cons_self x xs)
    subst hx
    cases xs with
    | nil => rfl
    | cons y ys =>
      have hy : y = x :=
        ((hiff y).1 (List.mem_cons_of_mem x (List.mem_cons_self y ys))).trans
          ((hiff x).1 (List.mem_cons_self x (y :: ys))).symm
      have hnotin : x ∉ y :: ys := (List.nodup_cons.1 hnd).1
      rw [hy] at hnotin
      exact absurd (List.mem_cons_self x ys) hnotin

/-- C5: on any table whose observed date set is a contiguous daily range with
exactly one interior day removed, `check_missing_dates` returns exactly that
day and nothing else. -/
theorem missing_dates_spec (df : List Row) (a m b : Nat)
    (hmem : ∀ d, d ∈ dsList df ↔ a ≤ d ∧ d ≤ b ∧ d ≠ m)
    (ham : a < m) (hmb : m < b) :
    check_missing_dates df = [m] := by
  have haL : a ∈ dsList df := (hmem a).2 ⟨le_refl a, by omega, by omega⟩
  have hbL : b ∈ dsList df := (hmem b).2 ⟨by omega, le_refl b, by omega⟩
  have hlo : foldMin 0 (dsList df) = a := by
    have h1 : foldMin 0 (dsList df) ≤ a := foldMin_le_of_mem 0 haL
    have h2 : a ≤ foldMin 0 (dsList df) :=
      ((hmem _).1 (foldMin_mem 0 (List.ne_nil_of_mem haL))).1
    omega
  have hhi : foldMax 0 (dsList df) = b := by
    have h1 : b ≤ foldMax 0 (dsList df) := le_foldMax_of_mem 0 hbL
    have h2 : foldMax 0 (dsList df) ≤ b :=
      ((hmem _).1 (foldMax_mem 0 (List.ne_nil_of_mem haL))).2.1
    omega
  simp only [check_missing_dates, hlo, hhi]
  apply eq_singleton_of_nodup_of_mem_iff
  · exact List.Nodup.filter _ (List.nodup_range' a (b - a + 1))
  · intro d
    rw [List.mem_filter, List.mem_range'_1]
    constructor
    · rintro ⟨⟨h1, h2⟩, h3⟩
      have h4 : d ∉ dsList df := by simpa using h3
      rw [hmem d] at h4
      omega
    · intro hd
      refine ⟨⟨by omega, by omega⟩, ?_⟩
      have hnm : d ∉ dsList df := by
        rw [hmem d]
        intro h
        exact h.2.2 hd
      simpa using hnm

/-- Witness for C5 on `exGap`: the single interior gap 5 of 3..7 is found. -/
theorem missing_dates_spec_witness : check_missing_dates exGap = [5] :=
  missing_dates_spec exGap 3 5 7
    (by intro d; simp [dsList, exGap]; omega) (by omega) (by omega)

end Yapper

/-! ## Claim theorems: industry aggregator -/

namespace Yapper

/-- C3: every output row of `active_users_by_ind` has
`avg_daily_users = active_users / 7`, and the output is sorted by
`active_users` descending. -/
theorem active_users_by_ind_spec (df : List Row) :
    (∀ row ∈ active_users_by_ind df,
      row.avg_daily_users = (row.active_users : ℚ) / 7) ∧
    List.Sorted (fun a b => b.active_users ≤ a.active_users)
      (active_users_by_ind df) := by
  constructor
  · intro row hrow
    have h1 : row ∈ (indKeys df).map
        (fun i => (⟨i, indSum df i, (indSum df i : ℚ) / 7⟩ : IndUsersRow)) :=
      (List.perm_insertionSort leUsersDesc _).subset hrow
    obtain ⟨i, _, hrow_eq⟩ := List.mem_map.1 h1
    rw [← hrow_eq]
  · exact List.sorted_insertionSort leUsersDesc _

/-- C10: rows whose industry name is missing (unmatched left-join rows) feed
no group of `active_users_by_ind`: deleting them leaves the output unchanged,
so no output row represents them and no sum includes them. -/
theorem missing_industry_excluded (df : List Row) :
    active_users_by_ind df
      = active_users_by_ind (df.filter (fun r => r.industry.isSome)) := by
  have hweek : lastWeekRows (df.filter (fun r => r.industry.isSome))
      = (lastWeekRows df).filter (fun r => r.industry.isSome) := by
    rw [lastWeekRows, lastWeekRows, List.filter_filter, List.filter_filter]
    exact List.filter_congr (fun r _ => Bool.and_comm _ _)
  have hfm : ∀ l : List Row,
      (l.filter (fun r => r.industry.isSome)).filterMap Row.industry
        = l.filterMap Row.industry := by
    intro l
    induction l with
    | nil => rfl
    | cons r rs ih =>
      cases hr : r.industry with
      | none => simp [List.filter_cons, List.filterMap_cons, hr, ih]
      | some v => simp [List.filter_cons, List.filterMap_cons, hr, ih]
  have hkeys : indKeys (df.filter (fun r => r.industry.isSome)) = indKeys df := by
    rw [indKeys, indKeys, hweek, hfm]
  have hgroups : ∀ i,
      indGroupRows (df.filter (fun r => r.industry.isSome)) i
        = indGroupRows df i := by
    intro i
    rw [indGroupRows, indGroupRows, hweek, List.filter_filter]
    refine List.filter_congr (fun r _ => ?_)
    cases hr : r.industry <;> simp [hr]
  have hsums : ∀ i,
      indSum (df.filter (fun r => r.industry.isSome)) i = indSum df i := by
    intro i
    rw [indSum, indSum, hgroups]
  rw [active_users_by_ind, active_users_by_ind, hkeys]
  congr 1
  refine List.map_congr_left (fun i _ => ?_)
  rw [hsums]

end Yapper

namespace Yapper

/-- Witness for C3 on `exIndTbl`: the single output row has
`avg_daily_users = 7 / 7`. -/
theorem active_users_by_ind_spec_witness :
    (⟨"Tech", 7, 1⟩ : IndUsersRow).avg_daily_users
      = (((⟨"Tech", 7, 1⟩ : IndUsersRow).active_users : ℚ)) / 7 :=
  (active_users_by_ind_spec exIndTbl).1 ⟨"Tech", 7, 1⟩ (by decide)

end Yapper

/-! ## Claim theorems: top-countries aggregator -/

namespace Yapper

/-- C1 (amended): every row returned by `avg_team_sz_top_countries df 5`
carries an average-method rank at most 5, hence fewer than five countries
have a strictly larger distinct-team count; and the output is sorted by
`avg_team_sz` descending.  (Because tied countries share one rank, the output
can hold more than 5 rows — see the counterexample.) -/
theorem top_countries_spec (df : List Row) :
    (∀ row ∈ avg_team_sz_top_countries df 5,
      row.teams_cnt_rank ≤ 5 ∧
      ((cntryKeys df).filter
        (fun d => decide (countdTeams df row.country < countdTeams df d))).length < 5) ∧
    List.Sorted (fun a b => b.avg_team_sz ≤ a.avg_team_sz)
      (avg_team_sz_top_countries df 5) := by
  constructor
  · intro row hrow
    have h1 : row ∈ (List.insertionSort leRankAsc (cntrySummRows df)).filter
        (fun r => decide (r.teams_cnt_rank ≤ ((5 : Nat) : ℚ))) :=
      (List.perm_insertionSort leAvgSzDesc _).subset hrow
    have h2 := List.mem_filter.1 h1
    have h3 : row ∈ cntrySummRows df :=
      (List.perm_insertionSort leRankAsc _).subset h2.1
    have hrank : row.teams_cnt_rank ≤ 5 := by
      have := of_decide_eq_true h2.2
      simpa using this
    obtain ⟨c, hc, hceq⟩ := List.mem_map.1 h3
    refine ⟨hrank, ?_⟩
    have hcountry : row.country = c := by rw [← hceq]
    have hrank_eq : row.teams_cnt_rank = rankOf df c := by rw [← hceq]
    set S := ((cntryKeys df).filter
      (fun d => decide (countdTeams df c < countdTeams df d))).length with hS
    set E := ((cntryKeys df).filter
      (fun d => countdTeams df d == countdTeams df c)).length with hE
    have hrank_form : rankOf df c = (S : ℚ) + ((E : ℚ) + 1) / 2 := rfl
    have hE1 : 1 ≤ E := by
      have hmem : c ∈ (cntryKeys df).filter
          (fun d => countdTeams df d == countdTeams df c) :=
        List.mem_filter.2 ⟨hc, by simp⟩
      have := List.length_pos.2 (List.ne_nil_of_mem hmem)
      omega
    have hcast : (1 : ℚ) ≤ (E : ℚ) := by exact_mod_cast hE1
    have hq : (S : ℚ) + ((E : ℚ) + 1) / 2 ≤ 5 := by
      rw [← hrank_form, ← hrank_eq]; exact hrank
    have hSle : (S : ℚ) ≤ 4 := by linarith
    have hS4 : S ≤ 4 := by exact_mod_cast hSle
    rw [hcountry]
    omega
  · exact List.sorted_insertionSort leAvgSzDesc _

/-- Counterexample to C1 as stated: with nine countries tied on the
distinct-team count, each has average rank (1+9)/2 = 5 ≤ 5, so
`avg_team_sz_top_countries _ 5` returns nine rows, not at most five. -/
theorem top_countries_tie_counterexample :
    (avg_team_sz_top_countries exNineTie 5).length = 9 ∧
      ¬ (avg_team_sz_top_countries exNineTie 5).length ≤ 5 := by decide

/-- Witness for C1 (amended) on `exNineTie`: the returned row for country
`c9` has rank ≤ 5 and no country strictly outranks it. -/
theorem top_countries_spec_witness :
    (⟨"c9", 1, 9, 5⟩ : CntryRow).teams_cnt_rank ≤ 5 ∧
      ((cntryKeys exNineTie).filter
        (fun d => decide (countdTeams exNineTie
          (⟨"c9", 1, 9, 5⟩ : CntryRow).country < countdTeams exNineTie d))).length < 5 :=
  (top_countries_spec exNineTie).1 ⟨"c9", 1, 9, 5⟩ (by decide)

end Yapper

/-! ## Claim theorems: daily summary and main pipeline -/

namespace Yapper

/-- C8: the messages-per-user ratio of `daily_summary_figues` is unguarded —
on `exZeroDay` a date group with zero total active users and nonzero messages
yields a non-finite ratio instead of a handled error — while every date group
with a nonzero total gets exactly `sum(messages_7d) / sum(active_users)`. -/
theorem daily_summary_ratio_spec (df : List Row) :
    (∀ row ∈ daily_summary_figues df, row.total_active_users ≠ 0 →
      row.msgs_per_user = some
        ((((dateRows df row.ds).map Row.messages_7d).sum : ℚ) /
          (((dateRows df row.ds).map Row.active_users).sum : ℚ))) ∧
    ∃ row ∈ daily_summary_figues exZeroDay,
      row.total_active_users = 0 ∧ row.total_msgs_mm ≠ 0 ∧
        row.msgs_per_user = none := by
  constructor
  · intro row hrow h0
    obtain ⟨d, _, heq⟩ := List.mem_map.1 hrow
    subst heq
    dsimp only at h0 ⊢
    have hne : (((dateRows df d).map Row.active_users).sum : ℚ) ≠ 0 :=
      Int.cast_ne_zero.2 h0
    simp only [fdiv, if_neg hne]
    rw [div_mul_cancel₀ _ (by norm_num : (1000000 : ℚ) ≠ 0)]
  · decide

/-- Witness for C8 on `exRatio`: the single date group has 2 active users and
10 messages, so the ratio is `10 / 2`. -/
theorem daily_summary_ratio_spec_witness :
    (⟨0, 1, 2, 2, 10 / 1000000, some 5⟩ : DlyRow).msgs_per_user
      = some
        ((((dateRows exRatio
            (⟨0, 1, 2, 2, 10 / 1000000, some 5⟩ : DlyRow).ds).map
              Row.messages_7d).sum : ℚ) /
          (((dateRows exRatio
            (⟨0, 1, 2, 2, 10 / 1000000, some 5⟩ : DlyRow).ds).map
              Row.active_users).sum : ℚ)) :=
  (daily_summary_ratio_spec exRatio).1 ⟨0, 1, 2, 2, 10 / 1000000, some 5⟩
    (by decide) (by decide)

/-- C9: the main script's working table is produced only by excluding the two
flagged team-id sets — a loaded row survives exactly when its team id is in
neither set — and the missing-dates diagnostic, though computed, never
filters the table handed to the aggregators. -/
theorem pipeline_frame_spec (act : List ActRow) (ind : List IndMapRow) :
    (mainPipeline act ind).working = workingTable act ind ∧
    (mainPipeline act ind).working
      = (read_data act ind).filter (fun r =>
          !(check_no_active_users (read_data act ind)).contains r.team_id &&
          !(check_consistent_cohort (isinExclude (read_data act ind)
              (check_no_active_users (read_data act ind)))).contains r.team_id) ∧
    (∀ r ∈ read_data act ind,
      (r ∈ (mainPipeline act ind).working ↔
        ¬ (r.team_id ∈ check_no_active_users (read_data act ind) ∨
           r.team_id ∈ check_consistent_cohort (isinExclude (read_data act ind)
             (check_no_active_users (read_data act ind)))))) ∧
    (mainPipeline act ind).missing_dts
      = check_missing_dates ((mainPipeline act ind).working) := by
  have hfilt : (mainPipeline act ind).working
      = (read_data act ind).filter (fun r =>
          !(check_no_active_users (read_data act ind)).contains r.team_id &&
          !(check_consistent_cohort (isinExclude (read_data act ind)
              (check_no_active_users (read_data act ind)))).contains r.team_id) := by
    show isinExclude (isinExclude (read_data act ind) _) _ = _
    rw [isinExclude, isinExclude, List.filter_filter]
    exact List.filter_congr (fun r _ => Bool.and_comm _ _)
  refine ⟨rfl, hfilt, ?_, rfl⟩
  intro r hr
  rw [hfilt, List.mem_filter]
  simp [hr, not_or]

/-- Witness for C9 on `exMainAct`/`exMainInd`: the joined row of team 2
survives the pipeline exactly because team 2 is in neither flagged set. -/
theorem pipeline_frame_spec_witness :
    mkJoined ⟨0, 2, "US", 1, 3, 0⟩ none ∈ (mainPipeline exMainAct exMainInd).working ↔
      ¬ ((mkJoined ⟨0, 2, "US", 1, 3, 0⟩ none).team_id
            ∈ check_no_active_users (read_data exMainAct exMainInd) ∨
          (mkJoined ⟨0, 2, "US", 1, 3, 0⟩ none).team_id
            ∈ check_consistent_cohort (isinExclude (read_data exMainAct exMainInd)
                (check_no_active_users (read_data exMainAct exMainInd)))) :=
  (pipeline_frame_spec exMainAct exMainInd).2.2.1 _ (by decide)

end Yapper

/-! ## Claim theorems: loader and left join -/

namespace Yapper

lemma find?_eq_head_filter {α : Type} (p : α → Bool) (l : List α) :
    l.find? p = (l.filter p).head? := by
  induction l with
  | nil => rfl
  | cons x xs ih =>
    by_cases h : p x
    · rw [List.find?_cons_of_pos xs h, List.filter_cons_of_pos h]
      rfl
    · rw [List.find?_cons_of_neg xs h, List.filter_cons_of_neg h, ih]

lemma filter_normalizeInd (ind : List IndMapRow) (k : Nat) :
    (normalizeInd ind).filter (fun e => e.industry_id == k)
      = normalizeInd (ind.filter (fun e => e.industry_id == k)) := by
  rw [normalizeInd, normalizeInd, List.filter_map]
  rfl

lemma leftJoin_eq_map_of_unique (act : List ActRow) (ind' : List IndMapRow)
    (h : ∀ a ∈ act,
      (ind'.filter (fun e => e.industry_id == a.industry_id)).length ≤ 1) :
    leftJoin act ind' = act.map (fun a => mkJoined a
      ((ind'.find? (fun e => e.industry_id == a.industry_id)).map
        IndMapRow.industry)) := by
  induction act with
  | nil => rfl
  | cons a act' ih =>
    have ha := h a (List.mem_cons_self a act')
    have h' : ∀ b ∈ act',
        (ind'.filter (fun e => e.industry_id == b.industry_id)).length ≤ 1 :=
      fun b hb => h b (List.mem_cons_of_mem a hb)
    simp only [leftJoin, List.flatMap_cons, List.map_cons] at ih ⊢
    rw [ih h']
    rcases hms : ind'.filter (fun e => e.industry_id == a.industry_id)
      with _ | ⟨e, tail⟩
    · have hfind : ind'.find? (fun e => e.industry_id == a.industry_id) = none := by
        rw [find?_eq_head_filter, hms]
        rfl
      simp [hms, hfind]
    · have htail : tail = [] := by
        rw [hms] at ha
        simp only [List.length_cons] at ha
        exact List.length_eq_zero.1 (by omega)
      subst htail
      have hfind : ind'.find? (fun e => e.industry_id == a.industry_id) = some e := by
        rw [find?_eq_head_filter, hms]
        rfl
      simp [hms, hfind]

/-- C6: assuming each activity `industry_id` has at most one match in the
industry map, the loader's left join keeps every activity row with all its
columns, in order (stripping the added industry column recovers the activity
table exactly), and every activity row whose key has no match appears joined
with a missing industry name. -/
theorem left_join_spec (act : List ActRow) (ind : List IndMapRow)
    (h : ∀ a ∈ act,
      (ind.filter (fun e => e.industry_id == a.industry_id)).length ≤ 1) :
    read_data act ind
      = act.map (fun a => mkJoined a
          (((normalizeInd ind).find? (fun e => e.industry_id == a.industry_id)).map
            IndMapRow.industry)) ∧
    (read_data act ind).map
        (fun r => (⟨r.ds, r.team_id, r.country, r.industry_id, r.active_users,
          r.messages_7d⟩ : ActRow)) = act ∧
    ∀ a ∈ act, (∀ e ∈ ind, e.industry_id ≠ a.industry_id) →
      mkJoined a none ∈ read_data act ind := by
  have hlen : ∀ a ∈ act,
      ((normalizeInd ind).filter (fun e => e.industry_id == a.industry_id)).length ≤ 1 := by
    intro a ha
    rw [filter_normalizeInd, normalizeInd, List.length_map]
    exact h a ha
  have hmain : read_data act ind = act.map (fun a => mkJoined a
      (((normalizeInd ind).find? (fun e => e.industry_id == a.industry_id)).map
        IndMapRow.industry)) := by
    rw [read_data]
    exact leftJoin_eq_map_of_unique act (normalizeInd ind) hlen
  refine ⟨hmain, ?_, ?_⟩
  · rw [hmain, List.map_map]
    exact List.map_id act
  · intro a ha hnone
    have hfilt : ind.filter (fun e => e.industry_id == a.industry_id) = [] :=
      List.filter_eq_nil_iff.2 (fun e he => by simp [hnone e he])
    have hfind : (normalizeInd ind).find?
        (fun e => e.industry_id == a.industry_id) = none := by
      rw [find?_eq_head_filter, filter_normalizeInd, hfilt]
      rfl
    rw [hmain]
    refine List.mem_map.2 ⟨a, ha, ?_⟩
    rw [hfind]
    rfl

/-- Witness for C6 on `exJoinAct`/`exJoinInd`: key 1 matched, key 9 joined
with a missing industry name, both rows preserved. -/
theorem left_join_spec_witness :
    read_data exJoinAct exJoinInd
      = exJoinAct.map (fun a => mkJoined a
          (((normalizeInd exJoinInd).find?
            (fun e => e.industry_id == a.industry_id)).map IndMapRow.industry)) ∧
    (read_data exJoinAct exJoinInd).map
        (fun r => (⟨r.ds, r.team_id, r.country, r.industry_id, r.active_users,
          r.messages_7d⟩ : ActRow)) = exJoinAct ∧
    ∀ a ∈ exJoinAct, (∀ e ∈ exJoinInd, e.industry_id ≠ a.industry_id) →
      mkJoined a none ∈ read_data exJoinAct exJoinInd :=
  left_join_spec exJoinAct exJoinInd (by decide)

end Yapper

/-! ## Claim theorems: Healthcare name normalization -/

namespace Yapper

lemma replaceFuel_congr (pat rep : List Char) :
    ∀ f g s, s.length ≤ f → s.length ≤ g →
      replaceFuel pat rep f s = replaceFuel pat rep g s := by
  intro f
  induction f with
  | zero =>
    intro g s hf _
    have hnil : s = [] := List.length_eq_zero.1 (Nat.le_zero.1 hf)
    subst hnil
    cases g <;> rfl
  | succ f ih =>
    intro g s hf hg
    cases s with
    | nil => cases g <;> rfl
    | cons c cs =>
      cases g with
      | zero => simp at hg
      | succ g =>
        have hf' : cs.length ≤ f := by simp at hf; omega
        have hg' : cs.length ≤ g := by simp at hg; omega
        show (if pat.isPrefixOf (c :: cs) then
            rep ++ replaceFuel pat rep f (cs.drop (pat.length - 1))
          else c :: replaceFuel pat rep f cs)
          = (if pat.isPrefixOf (c :: cs) then
            rep ++ replaceFuel pat rep g (cs.drop (pat.length - 1))
          else c :: replaceFuel pat rep g cs)
        by_cases hp : pat.isPrefixOf (c :: cs)
        · rw [if_pos hp, if_pos hp]
          congr 1
          refine ih g (cs.drop (pat.length - 1)) ?_ ?_ <;>
            simp [List.length_drop] <;> omega
        · rw [if_neg hp, if_neg hp, ih g cs hf' hg']

lemma replaceL_nil (pat rep : List Char) : replaceL pat rep [] = [] := rfl

lemma replaceL_cons (pat rep : List Char) (c : Char) (cs : List Char) :
    replaceL pat rep (c :: cs) =
      if pat.isPrefixOf (c :: cs) then
        rep ++ replaceL pat rep (cs.drop (pat.length - 1))
      else c :: replaceL pat rep cs := by
  show (if pat.isPrefixOf (c :: cs) then
      rep ++ replaceFuel pat rep cs.length (cs.drop (pat.length - 1))
    else c :: replaceFuel pat rep cs.length cs) = _
  by_cases hp : pat.isPrefixOf (c :: cs)
  · rw [if_pos hp, if_pos hp]
    congr 1
    refine replaceFuel_congr pat rep cs.length _ _ ?_ (le_refl _)
    simp [List.length_drop]
  · rw [if_neg hp, if_neg hp]
    rfl

lemma infix_append_of_no_overlap {P R t : List Char}
    (h : ∀ i, i < R.length → ¬(R.drop i <+: P) ∧ ¬(P <+: R.drop i)) :
    P <:+: R ++ t → P <:+: t := by
  induction R with
  | nil => intro hinf; simpa using hinf
  | cons r R' ih =>
    intro hinf
    rcases List.infix_cons_iff.1 hinf with hpre | hinf'
    · exfalso
      rcases le_or_lt P.length (r :: R').length with hle | hlt
      · have hPR : P <+: (r :: R') :=
          List.prefix_of_prefix_length_le hpre (List.prefix_append (r :: R') t) hle
        exact (h 0 (by simp)).2 hPR
      · have hRP : (r :: R') <+: P :=
          List.prefix_of_prefix_length_le (List.prefix_append (r :: R') t) hpre
            (le_of_lt hlt)
        exact (h 0 (by simp)).1 hRP
    · refine ih (fun i hi => ?_) hinf'
      exact h (i + 1) (by simpa using Nat.succ_lt_succ hi)

end Yapper

namespace Yapper

lemma char_isPrefixOf_iff (l₁ l₂ : List Char) : l₁.isPrefixOf l₂ ↔ l₁ <+: l₂ :=
  List.isPrefixOf_iff_prefix

lemma replaceL_no_occur_aux (P R : List Char)
    (hP : P ≠ [])
    (hRP : ∀ i, i < R.length → ¬(R.drop i <+: P) ∧ ¬(P <+: R.drop i))
    (hPR : ∀ k, k < P.length → 1 ≤ k → ¬(P.drop k <+: R))
    (hlen : P.length ≤ R.length + 1) :
    ∀ n s, s.length ≤ n →
      ¬ P <:+: replaceL P R s ∧
      ∀ k, k < P.length → 1 ≤ k →
        P.drop k <+: replaceL P R s → P.drop k <+: s := by
  intro n
  induction n with
  | zero =>
    intro s hs
    have hnil : s = [] := List.length_eq_zero.1 (Nat.le_zero.1 hs)
    subst hnil
    rw [replaceL_nil]
    refine ⟨fun hinf => hP (List.infix_nil.1 hinf), fun k hk _ hpre => ?_⟩
    have hle := hpre.length_le
    simp [List.length_drop] at hle
    omega
  | succ n ih =>
    intro s hs
    cases s with
    | nil =>
      rw [replaceL_nil]
      refine ⟨fun hinf => hP (List.infix_nil.1 hinf), fun k hk _ hpre => ?_⟩
      have hle := hpre.length_le
      simp [List.length_drop] at hle
      omega
    | cons c cs =>
      have hcs : cs.length ≤ n := by simp at hs; omega
      by_cases hp : P <+: c :: cs
      · have hpb : P.isPrefixOf (c :: cs) := (char_isPrefixOf_iff P (c :: cs)).2 hp
        rw [replaceL_cons, if_pos hpb]
        have ihd := ih (cs.drop (P.length - 1)) (by simp [List.length_drop]; omega)
        constructor
        · intro hinf
          exact ihd.1 (infix_append_of_no_overlap hRP hinf)
        · intro k hk hk1 hpre
          exfalso
          have hlenk : (P.drop k).length ≤ R.length := by
            simp [List.length_drop]
            omega
          exact hPR k hk hk1
            (List.prefix_of_prefix_length_le hpre (List.prefix_append R _) hlenk)
      · have hpb : ¬ P.isPrefixOf (c :: cs) := fun hx =>
          hp ((char_isPrefixOf_iff P (c :: cs)).1 hx)
        rw [replaceL_cons, if_neg hpb]
        have ihc := ih cs hcs
        have hsecond : ∀ k, k < P.length → 1 ≤ k →
            P.drop k <+: c :: replaceL P R cs → P.drop k <+: c :: cs := by
          intro k hk hk1 hpre
          have hdk := List.drop_eq_getElem_cons hk
          rw [hdk, List.cons_prefix_cons] at hpre
          obtain ⟨hpc, hrest⟩ := hpre
          rw [hdk, List.cons_prefix_cons]
          refine ⟨hpc, ?_⟩
          by_cases hk2 : k + 1 < P.length
          · exact ihc.2 (k + 1) hk2 (by omega) hrest
          · have hdnil : P.drop (k + 1) = [] := List.drop_eq_nil_of_le (by omega)
            rw [hdnil]
            exact List.nil_prefix
        refine ⟨?_, hsecond⟩
        intro hinf
        rcases List.infix_cons_iff.1 hinf with hpre | hinf'
        · obtain ⟨p0, P1, hP0⟩ := List.exists_cons_of_ne_nil hP
          rw [hP0, List.cons_prefix_cons] at hpre
          obtain ⟨hpc, hP1⟩ := hpre
          rw [← hP0] at hP1
          by_cases h1 : 1 < P.length
          · have hP1d : P.drop 1 = P1 := by rw [hP0]; rfl
            have hcs1 : P.drop 1 <+: cs :=
              ihc.2 1 h1 (le_refl 1) (by rw [hP1d]; exact hP1)
            rw [hP1d] at hcs1
            refine hp ?_
            rw [hP0, List.cons_prefix_cons]
            exact ⟨hpc, hcs1⟩
          · have hP1nil : P1 = [] := by
              have hl := congrArg List.length hP0
              have hpos := List.length_pos.2 hP
              simp only [List.length_cons] at hl
              have : P1.length = 0 := by omega
              exact List.length_eq_zero.1 this
            refine hp ?_
            rw [hP0, hP1nil, List.cons_prefix_cons]
            exact ⟨hpc, List.nil_prefix⟩
        · exact ihc.1 hinf'

lemma replaceL_eq_self (P R : List Char) :
    ∀ s, ¬ P <:+: s → replaceL P R s = s := by
  intro s
  induction s with
  | nil => intro _; rfl
  | cons c cs ih =>
    intro hninf
    have hnp : ¬ P.isPrefixOf (c :: cs) := by
      intro hx
      obtain ⟨t, ht⟩ := (char_isPrefixOf_iff P (c :: cs)).1 hx
      exact hninf ⟨[], t, by simpa using ht⟩
    rw [replaceL_cons, if_neg hnp,
      ih (fun hinf => hninf (List.infix_cons hinf))]

lemma hcPat_no_occur (s : List Char) : ¬ hcPat <:+: replaceL hcPat hcRep s :=
  (replaceL_no_occur_aux hcPat hcRep (by decide) (by decide) (by decide)
    (by decide) s.length s (le_refl _)).1

/-- C7: the loader's Healthcare normalization is idempotent — a name that has
already been normalized is left unchanged — and joining onto a map whose
entries for an industry id all spell either `"Health Care"` or
`"Healthcare"` (both present) gives every joined row for that id the single
canonical `"Healthcare"` label. -/
theorem healthcare_normalization_spec (s : String) (act : List ActRow)
    (ind : List IndMapRow) (X : Nat)
    (hX : ∃ e ∈ ind, e.industry_id = X)
    (hsp : ∀ e ∈ ind, e.industry_id = X →
      e.industry = "Health Care" ∨ e.industry = "Healthcare") :
    normalize_industry (normalize_industry s) = normalize_industry s ∧
    ∀ r ∈ read_data act ind, r.industry_id = X →
      r.industry = some "Healthcare" := by
  constructor
  · show (⟨replaceL hcPat hcRep (replaceL hcPat hcRep s.toList)⟩ : String)
      = normalize_industry s
    rw [replaceL_eq_self hcPat hcRep _ (hcPat_no_occur s.toList)]
    rfl
  · intro r hr hrX
    rw [read_data, leftJoin] at hr
    obtain ⟨a, ha, hbr⟩ := List.mem_flatMap.1 hr
    by_cases hms :
        ((normalizeInd ind).filter (fun e => e.industry_id == a.industry_id)).isEmpty
    · rw [if_pos hms] at hbr
      have hra : r = mkJoined a none := by simpa using hbr
      have haX : a.industry_id = X := by
        rw [hra] at hrX
        exact hrX
      exfalso
      obtain ⟨e, he, heX⟩ := hX
      have hmem : ({ e with industry := normalize_industry e.industry } : IndMapRow)
          ∈ (normalizeInd ind).filter (fun x => x.industry_id == a.industry_id) := by
        refine List.mem_filter.2 ⟨List.mem_map_of_mem _ he, ?_⟩
        simp [heX, haX]
      rw [List.isEmpty_iff.1 hms] at hmem
      simp at hmem
    · rw [if_neg hms] at hbr
      obtain ⟨e, he, hre⟩ := List.mem_map.1 hbr
      have he2 := List.mem_filter.1 he
      obtain ⟨e0, he0, he0eq⟩ := List.mem_map.1 he2.1
      have haX : a.industry_id = X := by
        rw [← hre] at hrX
        exact hrX
      have heid : e.industry_id = a.industry_id := by simpa using he2.2
      have he0X : e0.industry_id = X := by
        have h3 : e0.industry_id = e.industry_id := by rw [← he0eq]
        rw [h3, heid, haX]
      have hca : e.industry = "Healthcare" := by
        have h4 : e.industry = normalize_industry e0.industry := by rw [← he0eq]
        rcases hsp e0 he0 he0X with hname | hname
        · rw [h4, hname]; decide
        · rw [h4, hname]; decide
      rw [← hre]
      show some e.industry = some "Healthcare"
      rw [hca]

/-- Witness for C7 on `exHcAct`/`exHcInd`: a name containing the substring is
normalized idempotently, and the joined row for key 7 carries `"Healthcare"`. -/
theorem healthcare_normalization_spec_witness :
    normalize_industry (normalize_industry "XHealth Care Co")
      = normalize_industry "XHealth Care Co" ∧
    ∀ r ∈ read_data exHcAct exHcInd, r.industry_id = 7 →
      r.industry = some "Healthcare" :=
  healthcare_normalization_spec "XHealth Care Co" exHcAct exHcInd 7
    (by decide) (by decide)

end Yapper
